import Mathlib

/-!
Verification of the Fordefi/Exponent ALT orchestration code.

Shallow embedding of the address-lookup-table lifecycle logic:
`waitForLookupTable` (serialize_invest.ts), the required-address set
construction, diffing and chunking loop of `main` (run.ts), the
`createSetupPayload` existence filter (serialize_invest.ts), the
credential guard at the top of `main` (run.ts), and the module-level
`getMarketSdk` cache (serialize_invest.ts).

External effects are modelled by explicit oracles: the ledger read of a
lookup table is a function `Nat → Option α` (call index to result, where
`none` models both an absent table and a throwing read, which take the
same fall-through path in the code), account existence is a function
`String → Bool`, and elapsed sleep time is accumulated in milliseconds.
-/

namespace FordefiExponent

/-- Delay slept after a failed attempt, in milliseconds.  From
serialize_invest.ts: `Math.min(Math.pow(2, attempt), 30) * 1000`. -/
def backoffDelayMs (attempt : Nat) : Nat := min (2 ^ attempt) 30 * 1000

/-- The error thrown when the lookup table never becomes readable:
`Failed to fetch ALT after N attempts: address` carries the attempt
count and the table address. -/
structure LookupTableUnavailable where
  address : String
  attemptCount : Nat
deriving DecidableEq, Repr

/-- Retry loop body of `waitForLookupTable`.  `reads i` is the result of
the ledger read performed on attempt `i`; the fuel counts the remaining
attempts.  Returns (result, number of read calls made, total milliseconds
slept).  A successful read returns at once with no further sleep; a
failed read sleeps `backoffDelayMs attempt` and retries. -/
def waitGo {α : Type} (reads : Nat → Option α) : Nat → Nat → Option α × Nat × Nat
  | _, 0 => (none, 0, 0)
  | attempt, fuel + 1 =>
    match reads attempt with
    | some t => (some t, 1, 0)
    | none =>
      let r := waitGo reads (attempt + 1) fuel
      (r.1, r.2.1 + 1, r.2.2 + backoffDelayMs attempt)

/-- `waitForLookupTable` from serialize_invest.ts.  Attempts run from 1
to `maxRetries` (the code defaults `maxRetries` to 10); when all fail the
function throws, modelled as `Except.error` carrying the table address
and the attempt count. -/
def waitForLookupTable {α : Type} (reads : Nat → Option α) (address : String)
    (maxRetries : Nat) : Except LookupTableUnavailable α × Nat × Nat :=
  match waitGo reads 1 maxRetries with
  | (some t, calls, delay) => (Except.ok t, calls, delay)
  | (none, calls, delay) => (Except.error ⟨address, maxRetries⟩, calls, delay)

theorem waitGo_found {α : Type} (reads : Nat → Option α) (attempt fuel : Nat) (t : α)
    (h : reads attempt = some t) :
    waitGo reads attempt (fuel + 1) = (some t, 1, 0) := by
  simp [waitGo, h]

theorem waitGo_absent {α : Type} (reads : Nat → Option α) (attempt fuel : Nat)
    (h : reads attempt = none) :
    waitGo reads attempt (fuel + 1)
      = ((waitGo reads (attempt + 1) fuel).1,
         (waitGo reads (attempt + 1) fuel).2.1 + 1,
         (waitGo reads (attempt + 1) fuel).2.2 + backoffDelayMs attempt) := by
  simp [waitGo, h]

theorem waitGo_success {α : Type} (reads : Nat → Option α) (t : α) :
    ∀ (k attempt fuel : Nat), k < fuel →
      (∀ i, i < k → reads (attempt + i) = none) →
      reads (attempt + k) = some t →
      waitGo reads attempt fuel
        = (some t, k + 1, ∑ j ∈ Finset.range k, backoffDelayMs (attempt + j)) := by
  intro k
  induction k with
  | zero =>
    intro attempt fuel hf _ hs
    obtain ⟨f, rfl⟩ : ∃ f, fuel = f + 1 := ⟨fuel - 1, by omega⟩
    rw [waitGo_found reads attempt f t (by simpa using hs)]
    simp
  | succ k ih =>
    intro attempt fuel hf h0 hs
    obtain ⟨f, rfl⟩ : ∃ f, fuel = f + 1 := ⟨fuel - 1, by omega⟩
    have hnone : reads attempt = none := by simpa using h0 0 (by omega)
    rw [waitGo_absent reads attempt f hnone]
    have hrec := ih (attempt + 1) f (by omega)
      (fun i hi => by
        have hx := h0 (i + 1) (by omega)
        have harith : attempt + (i + 1) = attempt + 1 + i := by omega
        rwa [harith] at hx)
      (by
        have harith : attempt + (k + 1) = attempt + 1 + k := by omega
        rwa [harith] at hs)
    rw [hrec]
    refine Prod.ext rfl (Prod.ext rfl ?_)
    simp only
    rw [Finset.sum_range_succ']
    have harith : ∀ j, attempt + 1 + j = attempt + (j + 1) := by omega
    simp [harith]

theorem waitGo_allNone {α : Type} (reads : Nat → Option α)
    (h : ∀ i, reads i = none) :
    ∀ (fuel attempt : Nat), waitGo reads attempt fuel
      = (none, fuel, ∑ j ∈ Finset.range fuel, backoffDelayMs (attempt + j)) := by
  intro fuel
  induction fuel with
  | zero => intro attempt; simp [waitGo]
  | succ f ih =>
    intro attempt
    rw [waitGo_absent reads attempt f (h attempt), ih (attempt + 1)]
    refine Prod.ext rfl (Prod.ext rfl ?_)
    simp only
    rw [Finset.sum_range_succ']
    have harith : ∀ j, attempt + 1 + j = attempt + (j + 1) := by omega
    simp [harith]

theorem backoffDelayMs_eq_min (n : Nat) :
    backoffDelayMs n = min (2 ^ n * 1000) 30000 := by
  unfold backoffDelayMs
  rcases Nat.le_total (2 ^ n) 30 with h | h
  · rw [Nat.min_eq_left h, Nat.min_eq_left (by omega)]
  · rw [Nat.min_eq_right h, Nat.min_eq_right (by omega)]

/-- C1: if the ledger read returns absent for the first `k` calls and
present on call `k + 1`, with `k < maxRetries`, then `waitForLookupTable`
returns the table handle after exactly `k + 1` read calls, and the total
delay slept before the successful call is the sum over the `k` failed
attempts `i = 1..k` of `min (2 ^ i * baseDelay) maxDelay`, with
`baseDelay = 1000` ms (1 second) and `maxDelay = 30000` ms (30 seconds);
the sum below runs over `i ∈ range k`, i.e. attempt numbers `i + 1`. -/
theorem waitForLookupTable_backoff_success {α : Type} (reads : Nat → Option α)
    (address : String) (maxRetries k : Nat) (t : α)
    (hk : k < maxRetries)
    (habsent : ∀ i, 1 ≤ i → i ≤ k → reads i = none)
    (hfound : reads (k + 1) = some t) :
    waitForLookupTable reads address maxRetries
      = (Except.ok t, k + 1, ∑ i ∈ Finset.range k, min (2 ^ (i + 1) * 1000) 30000) := by
  have hgo := waitGo_success reads t k 1 maxRetries hk
    (fun i hi => habsent (1 + i) (by omega) (by omega))
    (by rw [Nat.add_comm 1 k]; exact hfound)
  unfold waitForLookupTable
  rw [hgo]
  have hsum : ∀ j, backoffDelayMs (1 + j) = min (2 ^ (j + 1) * 1000) 30000 := by
    intro j
    rw [backoffDelayMs_eq_min]
    have harith : 1 + j = j + 1 := by omega
    rw [harith]
  simp [hsum]

theorem waitForLookupTable_backoff_success_witness :
    waitForLookupTable (fun i => if i = 3 then some () else none) "table" 10
      = (Except.ok (), 3, ∑ i ∈ Finset.range 2, min (2 ^ (i + 1) * 1000) 30000) :=
  waitForLookupTable_backoff_success (fun i => if i = 3 then some () else none)
    "table" 10 2 () (by omega)
    (fun i h1 h2 => by interval_cases i <;> rfl) rfl

/-- C2: if the ledger read returns absent (or throws, which the code
catches and treats the same way) on every call, `waitForLookupTable`
makes exactly `maxRetries` read calls and then fails with a
`LookupTableUnavailable` error carrying the table address and the
attempt count. -/
theorem waitForLookupTable_exhausted {α : Type} (reads : Nat → Option α)
    (address : String) (maxRetries : Nat)
    (habsent : ∀ i, reads i = none) :
    (waitForLookupTable reads address maxRetries).1
        = Except.error ⟨address, maxRetries⟩ ∧
    (waitForLookupTable reads address maxRetries).2.1 = maxRetries := by
  unfold waitForLookupTable
  rw [waitGo_allNone reads habsent maxRetries 1]
  exact ⟨rfl, rfl⟩

theorem waitForLookupTable_exhausted_witness :
    (waitForLookupTable (fun _ => (none : Option Unit)) "table" 10).1
        = Except.error ⟨"table", 10⟩ ∧
    (waitForLookupTable (fun _ => (none : Option Unit)) "table" 10).2.1 = 10 :=
  waitForLookupTable_exhausted (fun _ => none) "table" 10 (fun _ => rfl)

/-- An account reference of a TransactionInstruction (pubkey rendered in
its base58 form, plus the signer/writable flags). -/
structure AccountMeta where
  pubkey : String
  isSigner : Bool
  isWritable : Bool
deriving DecidableEq, Repr

/-- A TransactionInstruction: a program address plus an ordered list of
referenced accounts. -/
structure TransactionInstruction where
  programId : String
  keys : List AccountMeta
deriving DecidableEq, Repr

/-- One `Set.add` on a JavaScript `Set` kept in insertion order: append
the element unless it is already present. -/
def insertUnique (s : List String) (a : String) : List String :=
  if a ∈ s then s else s ++ [a]

/-- `new Set(l)` then `Array.from`: the elements of `l` in input order
with duplicates removed (first occurrence kept). -/
def setFromList (l : List String) : List String := l.foldl insertUnique []

/-- Body of the `requiredInstructions.forEach` loop of `main` (run.ts):
add the program address, then every referenced account address, to the
insertion-ordered set. -/
def resolveStep (s : List String) (ix : TransactionInstruction) : List String :=
  ix.keys.foldl (fun s2 k => insertUnique s2 k.pubkey) (insertUnique s ix.programId)

/-- The required-address set built by `main` (run.ts): for every
instruction, add the program address and then every referenced account
address to one insertion-ordered set. -/
def resolveAddresses (requiredInstructions : List TransactionInstruction) : List String :=
  requiredInstructions.foldl resolveStep []

/-- Total number of account keys across a list of instructions. -/
def totalKeys (ixs : List TransactionInstruction) : Nat :=
  (ixs.map (fun ix => ix.keys.length)).sum

/-- The differ of `main` (run.ts): dedup `required` with set semantics,
then keep only the addresses not already in the table
(`Array.from(requiredAddresses).filter(addr => !existingAddresses.has(addr))`). -/
def diffAddresses (required existing : List String) : List String :=
  (setFromList required).filter (fun a => decide (a ∉ existing))

/-- The chunking loop of `main` (run.ts): repeatedly slice off the first
`chunkSize` addresses.  The code runs it with `chunkSize = 20`. -/
def chunk {α : Type} (chunkSize : Nat) : List α → List (List α)
  | [] => []
  | a :: as =>
    if h : chunkSize = 0 then [] else
      (a :: as).take chunkSize :: chunk chunkSize ((a :: as).drop chunkSize)
termination_by l => l.length
decreasing_by
  have := Nat.pos_of_ne_zero h
  simp only [List.length_drop, List.length_cons]
  omega

/-- The extension phase of `main` (run.ts): if the diff is empty the
extension step is skipped entirely, otherwise one extension submission
is issued per chunk of 20 new addresses. -/
def extensionBatches (newAddresses : List String) : List (List String) :=
  if newAddresses.length = 0 then [] else chunk 20 newAddresses

/-- The extension submissions one run of `main` issues, from the
instructions of the pending trade and the addresses already registered
in the table. -/
def runExtensionBatches (requiredInstructions : List TransactionInstruction)
    (existing : List String) : List (List String) :=
  extensionBatches
    ((resolveAddresses requiredInstructions).filter (fun a => decide (a ∉ existing)))

theorem insertUnique_of_mem {s : List String} {a : String} (h : a ∈ s) :
    insertUnique s a = s := by
  unfold insertUnique
  exact if_pos h

theorem insertUnique_of_not_mem {s : List String} {a : String} (h : a ∉ s) :
    insertUnique s a = s ++ [a] := by
  unfold insertUnique
  exact if_neg h

theorem mem_insertUnique (s : List String) (b a : String) :
    a ∈ insertUnique s b ↔ a ∈ s ∨ a = b := by
  unfold insertUnique
  by_cases h : b ∈ s
  · simp only [if_pos h]
    constructor
    · exact Or.inl
    · rintro (ha | rfl)
      · exact ha
      · exact h
  · simp [if_neg h]

theorem nodup_insertUnique (s : List String) (b : String) (h : s.Nodup) :
    (insertUnique s b).Nodup := by
  unfold insertUnique
  by_cases hb : b ∈ s
  · simpa [if_pos hb]
  · simp [if_neg hb, List.nodup_append, h, hb]

theorem length_insertUnique (s : List String) (b : String) :
    (insertUnique s b).length ≤ s.length + 1 := by
  unfold insertUnique
  split <;> simp

theorem mem_foldl_insertUnique (l : List String) :
    ∀ (acc : List String) (a : String),
      a ∈ l.foldl insertUnique acc ↔ a ∈ acc ∨ a ∈ l := by
  induction l with
  | nil => intro acc a; simp
  | cons b t ih =>
    intro acc a
    rw [List.foldl_cons, ih (insertUnique acc b) a, mem_insertUnique]
    constructor
    · rintro ((ha | rfl) | ha)
      · exact Or.inl ha
      · exact Or.inr (List.mem_cons_self _ _)
      · exact Or.inr (List.mem_cons_of_mem _ ha)
    · rintro (ha | ha)
      · exact Or.inl (Or.inl ha)
      · rcases List.mem_cons.mp ha with rfl | ha
        · exact Or.inl (Or.inr rfl)
        · exact Or.inr ha

theorem nodup_foldl_insertUnique (l : List String) :
    ∀ acc : List String, acc.Nodup → (l.foldl insertUnique acc).Nodup := by
  induction l with
  | nil => intro acc h; simpa
  | cons b t ih =>
    intro acc h
    rw [List.foldl_cons]
    exact ih (insertUnique acc b) (nodup_insertUnique acc b h)

theorem length_foldl_insertUnique (l : List String) :
    ∀ acc : List String, (l.foldl insertUnique acc).length ≤ acc.length + l.length := by
  induction l with
  | nil => intro acc; simp
  | cons b t ih =>
    intro acc
    rw [List.foldl_cons]
    calc (t.foldl insertUnique (insertUnique acc b)).length
        ≤ (insertUnique acc b).length + t.length := ih (insertUnique acc b)
      _ ≤ acc.length + 1 + t.length := by
          have := length_insertUnique acc b
          omega
      _ = acc.length + (b :: t).length := by simp; omega

theorem foldl_insertUnique_sublist (l : List String) :
    ∀ acc : List String, ∃ s, l.foldl insertUnique acc = acc ++ s ∧ s.Sublist l := by
  induction l with
  | nil => intro acc; exact ⟨[], by simp, List.Sublist.refl []⟩
  | cons b t ih =>
    intro acc
    rw [List.foldl_cons]
    by_cases h : b ∈ acc
    · obtain ⟨s, hs, hsub⟩ := ih acc
      exact ⟨s, by rw [insertUnique_of_mem h]; exact hs, hsub.cons b⟩
    · obtain ⟨s, hs, hsub⟩ := ih (acc ++ [b])
      refine ⟨b :: s, ?_, hsub.cons₂ b⟩
      rw [insertUnique_of_not_mem h, hs, List.append_assoc]
      rfl

theorem setFromList_nodup (l : List String) : (setFromList l).Nodup :=
  nodup_foldl_insertUnique l [] List.nodup_nil

theorem mem_setFromList (l : List String) (a : String) :
    a ∈ setFromList l ↔ a ∈ l := by
  unfold setFromList
  rw [mem_foldl_insertUnique]
  simp

theorem setFromList_sublist (l : List String) : (setFromList l).Sublist l := by
  obtain ⟨s, hs, hsub⟩ := foldl_insertUnique_sublist l []
  unfold setFromList
  rw [hs]
  simpa using hsub

theorem chunk_nil {α : Type} (n : Nat) : chunk n ([] : List α) = [] := by
  simp [chunk]

theorem chunk_cons {α : Type} {n : Nat} (hn : n ≠ 0) (a : α) (as : List α) :
    chunk n (a :: as) = (a :: as).take n :: chunk n ((a :: as).drop n) := by
  rw [chunk]
  simp [hn]

theorem chunk_eq_cons {α : Type} {n : Nat} (hn : n ≠ 0) (l : List α) (hl : l ≠ []) :
    chunk n l = l.take n :: chunk n (l.drop n) := by
  match l with
  | [] => exact absurd rfl hl
  | a :: as => exact chunk_cons hn a as

theorem chunk_flatten_aux {α : Type} {n : Nat} (hn : n ≠ 0) :
    ∀ (len : Nat) (l : List α), l.length ≤ len → (chunk n l).flatten = l := by
  intro len
  induction len with
  | zero =>
    intro l hl
    have hnil : l = [] := List.eq_nil_of_length_eq_zero (by omega)
    subst hnil
    simp [chunk_nil]
  | succ m ih =>
    intro l hl
    rcases l with _ | ⟨a, as⟩
    · simp [chunk_nil]
    · have hdrop : ((a :: as).drop n).length ≤ m := by
        simp only [List.length_drop, List.length_cons]
        have := Nat.pos_of_ne_zero hn
        simp only [List.length_cons] at hl
        omega
      rw [chunk_cons hn a as, List.flatten_cons, ih _ hdrop, List.take_append_drop]

theorem chunk_flatten {α : Type} {n : Nat} (hn : n ≠ 0) (l : List α) :
    (chunk n l).flatten = l :=
  chunk_flatten_aux hn l.length l (Nat.le_refl _)

theorem chunk_dropLast_aux {α : Type} {n : Nat} (hn : n ≠ 0) :
    ∀ (len : Nat) (l : List α), l.length ≤ len →
      ∀ c ∈ (chunk n l).dropLast, c.length = n := by
  intro len
  induction len with
  | zero =>
    intro l hl c hc
    have hnil : l = [] := List.eq_nil_of_length_eq_zero (by omega)
    subst hnil
    rw [chunk_nil] at hc
    simp at hc
  | succ m ih =>
    intro l hl c hc
    rcases l with _ | ⟨a, as⟩
    · rw [chunk_nil] at hc
      simp at hc
    · rw [chunk_cons hn a as] at hc
      rcases hrest : chunk n ((a :: as).drop n) with _ | ⟨b, bs⟩
      · rw [hrest] at hc
        simp at hc
      · rw [hrest, List.dropLast_cons₂] at hc
        have hne : (a :: as).drop n ≠ [] := by
          intro h0
          rw [h0, chunk_nil] at hrest
          exact List.cons_ne_nil b bs hrest.symm
        have hlen : n < (a :: as).length := by
          by_contra hge
          exact hne (List.drop_eq_nil_of_le (by omega))
        rcases List.mem_cons.mp hc with rfl | hc2
        · simp only [List.length_take]
          omega
        · have hdrop : ((a :: as).drop n).length ≤ m := by
            simp only [List.length_drop, List.length_cons]
            have := Nat.pos_of_ne_zero hn
            simp only [List.length_cons] at hl
            omega
          exact ih ((a :: as).drop n) hdrop c (by rw [hrest]; exact hc2)

theorem chunk_dropLast {α : Type} {n : Nat} (hn : n ≠ 0) (l : List α) :
    ∀ c ∈ (chunk n l).dropLast, c.length = n :=
  chunk_dropLast_aux hn l.length l (Nat.le_refl _)

/-- C3: chunking with chunk size 20 concatenated in order reproduces the
input exactly; every chunk except possibly the last has length exactly
20; the empty list yields zero chunks (so the extension loop issues zero
submissions); and a 45-element input yields exactly 3 chunks of sizes
20, 20, 5 in that order. -/
theorem chunkScheduler_spec {α : Type} (l : List α) :
    (chunk 20 l).flatten = l ∧
    (∀ c ∈ (chunk 20 l).dropLast, c.length = 20) ∧
    chunk 20 ([] : List α) = [] ∧
    (l.length = 45 → (chunk 20 l).map List.length = [20, 20, 5]) := by
  refine ⟨chunk_flatten (by omega) l, chunk_dropLast (by omega) l, chunk_nil 20, ?_⟩
  intro h45
  have h20 : (20 : Nat) ≠ 0 := by omega
  have hl1 : l ≠ [] := by
    intro h0
    rw [h0] at h45
    simp at h45
  have hd1 : (l.drop 20).length = 25 := by
    simp [List.length_drop, h45]
  have hd2 : ((l.drop 20).drop 20).length = 5 := by
    simp only [List.length_drop]
    omega
  have hd3 : (((l.drop 20).drop 20).drop 20).length = 0 := by
    simp only [List.length_drop]
    omega
  have hl2 : l.drop 20 ≠ [] := by
    intro h0
    rw [h0] at hd1
    simp at hd1
  have hl3 : (l.drop 20).drop 20 ≠ [] := by
    intro h0
    rw [h0] at hd2
    simp at hd2
  have hl4 : ((l.drop 20).drop 20).drop 20 = [] :=
    List.eq_nil_of_length_eq_zero hd3
  rw [chunk_eq_cons h20 l hl1, chunk_eq_cons h20 (l.drop 20) hl2,
    chunk_eq_cons h20 ((l.drop 20).drop 20) hl3, hl4, chunk_nil]
  simp [List.length_take, h45, hd1, hd2]

theorem chunkScheduler_spec_witness :
    (chunk 20 (List.range 45)).map List.length = [20, 20, 5] :=
  (chunkScheduler_spec (List.range 45)).2.2.2 (by simp)

/-- C4: the differ never returns an element of `existing`; against an
empty table it returns exactly the elements of `required` in input order
(a sublist of `required`) with duplicates removed (no duplicates, and
the same membership as `required`); `diff required required` is empty;
and when the diff is empty the extension phase issues no submission. -/
theorem lookupTableDiffer_spec (required existing : List String) :
    (∀ a ∈ diffAddresses required existing, a ∉ existing) ∧
    (diffAddresses required []).Sublist required ∧
    (diffAddresses required []).Nodup ∧
    (∀ a, a ∈ diffAddresses required [] ↔ a ∈ required) ∧
    diffAddresses required required = [] ∧
    (diffAddresses required existing = [] →
      extensionBatches (diffAddresses required existing) = []) := by
  have hempty : diffAddresses required [] = setFromList required := by
    unfold diffAddresses
    apply List.filter_eq_self.mpr
    intro a _
    simp
  refine ⟨?_, ?_, ?_, ?_, ?_, ?_⟩
  · intro a ha
    have := List.of_mem_filter ha
    simpa using this
  · rw [hempty]
    exact setFromList_sublist required
  · rw [hempty]
    exact setFromList_nodup required
  · intro a
    rw [hempty, mem_setFromList]
  · unfold diffAddresses
    apply List.filter_eq_nil_iff.mpr
    intro a ha
    simp [(mem_setFromList required a).mp ha]
  · intro h
    rw [h]
    rfl

theorem lookupTableDiffer_spec_witness :
    extensionBatches (diffAddresses ["a", "b"] ["a", "b"]) = [] :=
  (lookupTableDiffer_spec ["a", "b"] ["a", "b"]).2.2.2.2.2
    ((lookupTableDiffer_spec ["a", "b"] ["a", "b"]).2.2.2.2.1)

theorem mem_resolveStep (s : List String) (ix : TransactionInstruction) (a : String) :
    a ∈ resolveStep s ix
      ↔ a ∈ s ∨ a = ix.programId ∨ ∃ k ∈ ix.keys, a = k.pubkey := by
  unfold resolveStep
  rw [show ix.keys.foldl (fun s2 k => insertUnique s2 k.pubkey) (insertUnique s ix.programId)
        = (ix.keys.map AccountMeta.pubkey).foldl insertUnique (insertUnique s ix.programId)
      from (List.foldl_map _ _ _ _).symm]
  rw [mem_foldl_insertUnique, mem_insertUnique]
  simp only [List.mem_map, eq_comm]
  tauto

theorem nodup_resolveStep (s : List String) (ix : TransactionInstruction)
    (h : s.Nodup) : (resolveStep s ix).Nodup := by
  unfold resolveStep
  rw [show ix.keys.foldl (fun s2 k => insertUnique s2 k.pubkey) (insertUnique s ix.programId)
        = (ix.keys.map AccountMeta.pubkey).foldl insertUnique (insertUnique s ix.programId)
      from (List.foldl_map _ _ _ _).symm]
  exact nodup_foldl_insertUnique _ _ (nodup_insertUnique s ix.programId h)

theorem length_resolveStep (s : List String) (ix : TransactionInstruction) :
    (resolveStep s ix).length ≤ s.length + 1 + ix.keys.length := by
  unfold resolveStep
  rw [show ix.keys.foldl (fun s2 k => insertUnique s2 k.pubkey) (insertUnique s ix.programId)
        = (ix.keys.map AccountMeta.pubkey).foldl insertUnique (insertUnique s ix.programId)
      from (List.foldl_map _ _ _ _).symm]
  calc ((ix.keys.map AccountMeta.pubkey).foldl insertUnique (insertUnique s ix.programId)).length
      ≤ (insertUnique s ix.programId).length + (ix.keys.map AccountMeta.pubkey).length :=
        length_foldl_insertUnique _ _
    _ ≤ s.length + 1 + ix.keys.length := by
        have := length_insertUnique s ix.programId
        simp only [List.length_map]
        omega

theorem mem_resolve_foldl (ixs : List TransactionInstruction) :
    ∀ (acc : List String) (a : String),
      a ∈ ixs.foldl resolveStep acc
        ↔ a ∈ acc ∨ ∃ ix ∈ ixs, a = ix.programId ∨ ∃ k ∈ ix.keys, a = k.pubkey := by
  induction ixs with
  | nil => intro acc a; simp
  | cons b t ih =>
    intro acc a
    rw [List.foldl_cons, ih (resolveStep acc b) a, mem_resolveStep]
    simp only [List.mem_cons]
    constructor
    · rintro ((ha | hb) | ⟨ix, hix, hq⟩)
      · exact Or.inl ha
      · exact Or.inr ⟨b, Or.inl rfl, hb⟩
      · exact Or.inr ⟨ix, Or.inr hix, hq⟩
    · rintro (ha | ⟨ix, hix | hix, hq⟩)
      · exact Or.inl (Or.inl ha)
      · subst hix
        exact Or.inl (Or.inr hq)
      · exact Or.inr ⟨ix, hix, hq⟩

theorem nodup_resolve_foldl (ixs : List TransactionInstruction) :
    ∀ acc : List String, acc.Nodup → (ixs.foldl resolveStep acc).Nodup := by
  induction ixs with
  | nil => intro acc h; simpa
  | cons b t ih =>
    intro acc h
    rw [List.foldl_cons]
    exact ih (resolveStep acc b) (nodup_resolveStep acc b h)

theorem length_resolve_foldl (ixs : List TransactionInstruction) :
    ∀ acc : List String,
      (ixs.foldl resolveStep acc).length ≤ acc.length + ixs.length + totalKeys ixs := by
  induction ixs with
  | nil => intro acc; simp [totalKeys]
  | cons b t ih =>
    intro acc
    rw [List.foldl_cons]
    have h1 := ih (resolveStep acc b)
    have h2 := length_resolveStep acc b
    have h3 : totalKeys (b :: t) = b.keys.length + totalKeys t := by
      simp [totalKeys]
    simp only [List.length_cons]
    omega

/-- C5 counterexample: two key-less operations with distinct program
addresses resolve to a set of size 2, but the claimed bound is
1 + total keys = 1. -/
theorem addressSetResolver_counterexample :
    ¬ ((resolveAddresses
          [TransactionInstruction.mk "p1" [], TransactionInstruction.mk "p2" []]).length
        ≤ 1 + totalKeys
            [TransactionInstruction.mk "p1" [], TransactionInstruction.mk "p2" []]) := by
  decide

/-- C5 amended: for every InstructionSet, the size of the resolved
address set is at most the number of operations plus the total number of
keys across all operations (setup and trade) — rather than 1 plus the
total number of keys, which fails when several operations contribute
distinct program addresses — and every program address and every key
address of the input appears in the result exactly once regardless of
duplication in the input. -/
theorem addressSetResolver_spec (setupIxs tradeIxs : List TransactionInstruction) :
    (resolveAddresses (setupIxs ++ tradeIxs)).length
        ≤ (setupIxs ++ tradeIxs).length + totalKeys (setupIxs ++ tradeIxs) ∧
    (resolveAddresses (setupIxs ++ tradeIxs)).Nodup ∧
    (∀ a, a ∈ resolveAddresses (setupIxs ++ tradeIxs)
        ↔ ∃ ix ∈ setupIxs ++ tradeIxs, a = ix.programId ∨ ∃ k ∈ ix.keys, a = k.pubkey) ∧
    (∀ a, (∃ ix ∈ setupIxs ++ tradeIxs, a = ix.programId ∨ ∃ k ∈ ix.keys, a = k.pubkey) →
        (resolveAddresses (setupIxs ++ tradeIxs)).count a = 1) := by
  have hnodup : (resolveAddresses (setupIxs ++ tradeIxs)).Nodup :=
    nodup_resolve_foldl _ [] List.nodup_nil
  have hmem : ∀ a, a ∈ resolveAddresses (setupIxs ++ tradeIxs)
      ↔ ∃ ix ∈ setupIxs ++ tradeIxs, a = ix.programId ∨ ∃ k ∈ ix.keys, a = k.pubkey := by
    intro a
    unfold resolveAddresses
    rw [mem_resolve_foldl]
    simp
  refine ⟨?_, hnodup, hmem, ?_⟩
  · have := length_resolve_foldl (setupIxs ++ tradeIxs) []
    simpa [resolveAddresses] using this
  · intro a ha
    exact List.count_eq_one_of_mem hnodup ((hmem a).mpr ha)

theorem addressSetResolver_spec_witness :
    (resolveAddresses
        ([TransactionInstruction.mk "p1" [AccountMeta.mk "k1" true false]] ++ [])).count "k1" = 1 :=
  (addressSetResolver_spec [TransactionInstruction.mk "p1" [AccountMeta.mk "k1" true false]] []).2.2.2
    "k1" (by decide)

/-- C8: within one run, every address batch submitted to extend the
lookup table has pairwise-distinct addresses, and no address appears in
two different batches of the run: the required set is built with set
semantics and diffed against the existing addresses before chunking. -/
theorem noDuplicateExtension_spec (requiredInstructions : List TransactionInstruction)
    (existing : List String) :
    (∀ b ∈ runExtensionBatches requiredInstructions existing, b.Nodup) ∧
    (runExtensionBatches requiredInstructions existing).Pairwise List.Disjoint := by
  have hnodup : ((resolveAddresses requiredInstructions).filter
      (fun a => decide (a ∉ existing))).Nodup :=
    (nodup_resolve_foldl _ [] List.nodup_nil).filter _
  unfold runExtensionBatches extensionBatches
  split
  · simp
  · have hflat : (chunk 20 ((resolveAddresses requiredInstructions).filter
        (fun a => decide (a ∉ existing)))).flatten.Nodup := by
      rw [chunk_flatten (by omega)]
      exact hnodup
    exact List.nodup_flatten.mp hflat

/-- The account that a setup operation potentially creates: the second
referenced address in the operation, `ix.keys[1]?.pubkey`. -/
def secondKeyAddress (ix : TransactionInstruction) : Option String :=
  ix.keys[1]?.map AccountMeta.pubkey

/-- `setupIxs.map(ix => ix.keys[1]?.pubkey).filter(Boolean)` from
`createSetupPayload` (serialize_invest.ts): the candidate associated
token account addresses, skipping operations with fewer than two keys. -/
def ataAddresses (setupIxs : List TransactionInstruction) : List String :=
  (setupIxs.map secondKeyAddress).reduceOption

/-- A JavaScript `Array.prototype.filter` whose callback reads the
element index. -/
def filterByIndex {α : Type} (p : Nat → Bool) : List α → Nat → List α
  | [], _ => []
  | a :: as, i => if p i then a :: filterByIndex p as (i + 1) else filterByIndex p as (i + 1)

/-- The existence filter of `createSetupPayload` (serialize_invest.ts):
one batched existence query over the candidate addresses, then
`setupIxs.filter((_, index) => existingAccounts[index] === null)`.
`accountExists a = false` models a `null` account info entry. -/
def neededSetupIxs (setupIxs : List TransactionInstruction)
    (accountExists : String → Bool) : List TransactionInstruction :=
  let existingAccounts := (ataAddresses setupIxs).map accountExists
  filterByIndex (fun i => existingAccounts[i]? == some false) setupIxs 0

/-- `createSetupPayload` (serialize_invest.ts), with the returned payload
abstracted to the list of instructions it would serialize: `none` models
the `null` returns (no setup instructions at all, or every associated
token account already exists). -/
def createSetupPayload (setupIxs : List TransactionInstruction)
    (accountExists : String → Bool) : Option (List TransactionInstruction) :=
  if setupIxs.length = 0 then none
  else
    let needed := neededSetupIxs setupIxs accountExists
    if needed.length = 0 then none
    else some needed

/-- Does the operation target an account that the existence query
reported missing?  (Stated over the second referenced address.) -/
def targetMissing (accountExists : String → Bool) (ix : TransactionInstruction) : Bool :=
  match secondKeyAddress ix with
  | some a => !(accountExists a)
  | none => false

theorem filterByIndex_aligned {α : Type} (g : α → Bool) :
    ∀ (l : List α) (pre : List Bool),
      filterByIndex (fun i => (pre ++ l.map g)[i]? == some false) l pre.length
        = l.filter (fun x => !(g x)) := by
  intro l
  induction l with
  | nil => intro pre; rfl
  | cons a t ih =>
    intro pre
    have hget : (pre ++ (a :: t).map g)[pre.length]? = some (g a) := by
      rw [List.getElem?_append_right (Nat.le_refl _)]
      simp
    have hsplit : pre ++ (a :: t).map g = (pre ++ [g a]) ++ t.map g := by simp
    have hrec : filterByIndex (fun i => (pre ++ (a :: t).map g)[i]? == some false) t
          (pre.length + 1)
        = t.filter (fun x => !(g x)) := by
      have h2 := ih (pre ++ [g a])
      simp only [hsplit]
      simpa using h2
    show (if (pre ++ (a :: t).map g)[pre.length]? == some false
          then a :: filterByIndex (fun i => (pre ++ (a :: t).map g)[i]? == some false) t
            (pre.length + 1)
          else filterByIndex (fun i => (pre ++ (a :: t).map g)[i]? == some false) t
            (pre.length + 1))
        = (a :: t).filter fun x => !(g x)
    rw [hget, hrec]
    cases hga : g a
    · simp [List.filter_cons, hga]
    · simp [List.filter_cons, hga]

theorem ataAddresses_of_keys :
    ∀ setupIxs : List TransactionInstruction,
      (∀ ix ∈ setupIxs, 2 ≤ ix.keys.length) →
      ataAddresses setupIxs = setupIxs.map (fun ix => (secondKeyAddress ix).getD "") := by
  intro l
  induction l with
  | nil => intro _; rfl
  | cons b t ih =>
    intro hkeys
    have hb : 2 ≤ b.keys.length := hkeys b (List.mem_cons_self b t)
    obtain ⟨v, hv⟩ : ∃ v, b.keys[1]? = some v :=
      ⟨b.keys[1], List.getElem?_eq_getElem (by omega)⟩
    have hsk : secondKeyAddress b = some v.pubkey := by
      unfold secondKeyAddress
      rw [hv]
      rfl
    have ht := ih (fun ix hx => hkeys ix (List.mem_cons_of_mem b hx))
    unfold ataAddresses at ht ⊢
    rw [List.map_cons, hsk, List.reduceOption_cons_of_some, ht, List.map_cons, hsk]
    rfl

/-- C6: under the fixed positional convention that every setup operation
references at least two accounts (the target account being the second),
the filter of `createSetupPayload` keeps exactly the operations whose
target account reports as not existing, in the original order. -/
theorem setupDetector_spec (setupIxs : List TransactionInstruction)
    (accountExists : String → Bool)
    (hkeys : ∀ ix ∈ setupIxs, 2 ≤ ix.keys.length) :
    neededSetupIxs setupIxs accountExists
      = setupIxs.filter (targetMissing accountExists) := by
  unfold neededSetupIxs
  rw [ataAddresses_of_keys setupIxs hkeys, List.map_map]
  have halign := filterByIndex_aligned
    (fun ix => accountExists ((secondKeyAddress ix).getD "")) setupIxs []
  simp only [List.nil_append, List.length_nil] at halign
  rw [show (accountExists ∘ fun ix => (secondKeyAddress ix).getD "")
        = (fun ix : TransactionInstruction => accountExists ((secondKeyAddress ix).getD ""))
      from rfl]
  rw [halign]
  apply List.filter_congr
  intro x hx
  have hlen : 1 < x.keys.length := by
    have := hkeys x hx
    omega
  obtain ⟨v, hv⟩ : ∃ v, x.keys[1]? = some v :=
    ⟨x.keys[1], List.getElem?_eq_getElem hlen⟩
  unfold targetMissing secondKeyAddress
  rw [hv]
  rfl

theorem setupDetector_spec_witness :
    neededSetupIxs
        [TransactionInstruction.mk "prog" [AccountMeta.mk "payer" true true, AccountMeta.mk "ataA" false true],
         TransactionInstruction.mk "prog" [AccountMeta.mk "payer" true true, AccountMeta.mk "ataB" false true],
         TransactionInstruction.mk "prog" [AccountMeta.mk "payer" true true, AccountMeta.mk "ataC" false true]]
        (fun a => a == "ataA")
      = [TransactionInstruction.mk "prog" [AccountMeta.mk "payer" true true, AccountMeta.mk "ataB" false true],
         TransactionInstruction.mk "prog" [AccountMeta.mk "payer" true true, AccountMeta.mk "ataC" false true]] :=
  (setupDetector_spec
    [TransactionInstruction.mk "prog" [AccountMeta.mk "payer" true true, AccountMeta.mk "ataA" false true],
     TransactionInstruction.mk "prog" [AccountMeta.mk "payer" true true, AccountMeta.mk "ataB" false true],
     TransactionInstruction.mk "prog" [AccountMeta.mk "payer" true true, AccountMeta.mk "ataC" false true]]
    (fun a => a == "ataA") (by decide)).trans (by decide)

/-- Outcome reported for the setup phase by `main` (run.ts): either the
payload was submitted, or the phase was logged as skipped. -/
inductive PhaseOutcome
  | submitted
  | skipped
deriving DecidableEq, Repr

/-- What `main` (run.ts) does with the setup payload and afterwards:
`setupSubmissions` counts submissions issued for the setup phase, and
`tradeProceeded` records that control reaches the main trade step. -/
structure SetupPhaseTrace where
  setupOutcome : PhaseOutcome
  setupSubmissions : Nat
  tradeProceeded : Bool
deriving DecidableEq, Repr

/-- The setup phase of `main` (run.ts): when `createSetupPayload`
returned a payload it is sent (one submission) and the phase completes;
when it returned `null` the phase is logged as skipped with no
submission; either way the investment step follows. -/
def runSetupPhase (setupIxs : List TransactionInstruction)
    (accountExists : String → Bool) : SetupPhaseTrace :=
  match createSetupPayload setupIxs accountExists with
  | some _ => SetupPhaseTrace.mk PhaseOutcome.submitted 1 true
  | none => SetupPhaseTrace.mk PhaseOutcome.skipped 0 true

/-- C7: whenever no setup operation remains after filtering (including
the empty input list), `createSetupPayload` returns `null` rather than
an empty payload, the orchestrator issues no setup submission and
reports the phase as skipped — an outcome distinct from submitted — and
the main trade phase still proceeds. -/
theorem setupSkip_spec (setupIxs : List TransactionInstruction)
    (accountExists : String → Bool)
    (h : neededSetupIxs setupIxs accountExists = []) :
    createSetupPayload setupIxs accountExists = none ∧
    runSetupPhase setupIxs accountExists
      = SetupPhaseTrace.mk PhaseOutcome.skipped 0 true ∧
    PhaseOutcome.skipped ≠ PhaseOutcome.submitted := by
  have hnone : createSetupPayload setupIxs accountExists = none := by
    unfold createSetupPayload
    by_cases h0 : setupIxs.length = 0
    · rw [if_pos h0]
    · rw [if_neg h0]
      simp [h]
  refine ⟨hnone, ?_, by decide⟩
  unfold runSetupPhase
  rw [hnone]

theorem setupSkip_spec_witness :
    createSetupPayload [] (fun _ => false) = none ∧
    runSetupPhase [] (fun _ => false)
      = SetupPhaseTrace.mk PhaseOutcome.skipped 0 true ∧
    PhaseOutcome.skipped ≠ PhaseOutcome.submitted :=
  setupSkip_spec [] (fun _ => false) rfl

/-- The credential fields read from the environment (config.ts); an
unset environment variable yields the empty string. -/
structure FordefiSolanaConfig where
  accessToken : String
  vaultId : String
  fordefiSolanaVaultAddress : String
  privateKeyPem : String
  apiPathEndpoint : String
deriving DecidableEq, Repr

/-- An observable action of one run of `main` (run.ts). -/
inductive RunAction
  | configError
  | ledgerRead (what : String)
  | payloadConstruction (what : String)
  | submission (what : String)
deriving DecidableEq, Repr

/-- The guard at the top of `main` (run.ts): a JavaScript falsiness test
on the three credentials, which for these string fields means emptiness. -/
def credentialsMissing (cfg : FordefiSolanaConfig) : Bool :=
  cfg.accessToken == "" || cfg.vaultId == "" || cfg.fordefiSolanaVaultAddress == ""

/-- The action trace of `main` (run.ts): if any credential is missing,
log the configuration error and return at once; otherwise run the rest
of the pipeline (ledger reads, payload constructions, submissions),
abstracted as `pipeline`. -/
def mainTrace (cfg : FordefiSolanaConfig) (pipeline : Unit → List RunAction) :
    List RunAction :=
  if credentialsMissing cfg then [RunAction.configError] else pipeline ()

/-- C9: if any of the access token, vault id, or vault address is empty,
the run aborts immediately with the configuration error alone — whatever
the remaining pipeline would have done, no ledger read, payload
construction, or submission happens, and there is no retry (the trace
has length one). -/
theorem missingCredentialAbort_spec (cfg : FordefiSolanaConfig)
    (pipeline : Unit → List RunAction)
    (h : cfg.accessToken = "" ∨ cfg.vaultId = "" ∨ cfg.fordefiSolanaVaultAddress = "") :
    mainTrace cfg pipeline = [RunAction.configError] ∧
    (∀ a ∈ mainTrace cfg pipeline, a = RunAction.configError) ∧
    (mainTrace cfg pipeline).length = 1 := by
  have hmiss : credentialsMissing cfg = true := by
    unfold credentialsMissing
    rcases h with h | h | h <;> simp [h]
  have htrace : mainTrace cfg pipeline = [RunAction.configError] := by
    unfold mainTrace
    rw [hmiss]
    rfl
  refine ⟨htrace, ?_, by rw [htrace]; rfl⟩
  intro a ha
  rw [htrace] at ha
  simpa using ha

theorem missingCredentialAbort_spec_witness :
    mainTrace (FordefiSolanaConfig.mk "" "vault-id" "vault-addr" "pem" "/api/v1")
        (fun _ => [RunAction.ledgerRead "marketInfo", RunAction.submission "invest"])
      = [RunAction.configError] ∧
    (∀ a ∈ mainTrace (FordefiSolanaConfig.mk "" "vault-id" "vault-addr" "pem" "/api/v1")
        (fun _ => [RunAction.ledgerRead "marketInfo", RunAction.submission "invest"]),
      a = RunAction.configError) ∧
    (mainTrace (FordefiSolanaConfig.mk "" "vault-id" "vault-addr" "pem" "/api/v1")
        (fun _ => [RunAction.ledgerRead "marketInfo", RunAction.submission "invest"])).length = 1 :=
  missingCredentialAbort_spec
    (FordefiSolanaConfig.mk "" "vault-id" "vault-addr" "pem" "/api/v1")
    (fun _ => [RunAction.ledgerRead "marketInfo", RunAction.submission "invest"])
    (Or.inl rfl)

/-- The loaded Market SDK handle: remembers which market address and
which connection `Market.load` was called with. -/
structure Market where
  loadedMarketAddress : String
  loadedConnection : String
deriving DecidableEq, Repr

/-- `Market.load(LOCAL_ENV, connection, market)` from the SDK, modelled
as recording its arguments. -/
def MarketLoad (connection : String) (marketAddress : String) : Market :=
  Market.mk marketAddress connection

/-- `getMarketSdk` (serialize_invest.ts) with the module-level mutable
`marketSdk` cache made explicit: if the cache is empty, load and store;
otherwise return the cached instance, ignoring both arguments. -/
def getMarketSdk (marketAddress : String) (connection : String)
    (cache : Option Market) : Market × Option Market :=
  match cache with
  | some sdk => (sdk, some sdk)
  | none =>
    let sdk := MarketLoad connection marketAddress
    (sdk, some sdk)

/-- C10: starting from an empty module-level cache, a call
`getMarketSdk a ca` followed by `getMarketSdk b cb` returns, on the
second call, exactly the instance loaded for `a` over `ca` — ignoring
the second call's own market address and connection arguments, also
when `b` differs from `a`. -/
theorem getMarketSdk_cache_spec (a b ca cb : String) :
    (getMarketSdk b cb (getMarketSdk a ca none).2).1
        = (getMarketSdk a ca none).1 ∧
    (getMarketSdk b cb (getMarketSdk a ca none).2).1 = MarketLoad ca a ∧
    (getMarketSdk b cb (getMarketSdk a ca none).2).1.loadedMarketAddress = a := by
  refine ⟨rfl, rfl, rfl⟩

end FordefiExponent
